import Mathlib

/-!
# Verification of the price-series transform layer of `app.py`

This file gives a shallow embedding, in Lean 4, of the pure tabular
transforms of the dashboard's core (`to_long_close`, `normalized_returns`,
`daily_returns`, the latest/YTD/volatility metrics, the correlation tab and
the benchmark-comparison block), and proves or refutes the specification's
claims about them.

Modelling conventions:
* A pandas `DataFrame` of closing prices (wide form) is a `Wide`: a list of
  row dates together with a list of named columns, each column a list of
  cells aligned positionally with the dates.
* A cell is an `Option ℚ`; `none` stands for a value that is not a valid
  finite number (pandas `NaN`, and, where a division by zero would produce
  them, IEEE `inf`/`NaN`).  Prices and derived values are modelled as exact
  rationals; the only irrational operations (the square roots inside the
  rolling standard deviation and the correlation) are applied over `ℝ` at
  the outermost layer, keeping everything below them computable.
* `pct_change()` is modelled with the current pandas default
  `fill_method=None` (the padding default was deprecated and removed), i.e.
  no imputation before differencing.
* `rolling(w).std()` is modelled with the pandas defaults for an integer
  window: `min_periods = w` and `ddof = 1`.
* `DataFrame.corr()` is modelled with pairwise-complete observations,
  `min_periods = 1`, and a `none` result where the float code would produce
  `NaN` (no overlap, or a zero variance making the divisor zero).
* Code that raises (`IndexError` from `columns[0]`/`iloc[0]`, `ValueError`
  from an overlapping-name join) is modelled with `Except String`.
-/

set_option autoImplicit false

/-- A calendar date, compared lexicographically. -/
structure Date where
  y : Int
  m : Int
  d : Int
deriving DecidableEq, Repr

instance : Inhabited Date := ⟨⟨0, 0, 0⟩⟩

/-- Lexicographic `≤` on dates, as a Boolean (used for index masks). -/
def dateLe (a b : Date) : Bool :=
  decide (a.y < b.y) ||
    (decide (a.y = b.y) &&
      (decide (a.m < b.m) || (decide (a.m = b.m) && decide (a.d ≤ b.d))))

/-- A wide price table: a date index and named columns of optional cells,
each column aligned positionally with the date index.  This is the shallow
embedding of the `close_wide` `DataFrame` of `app.py` (ticker-level column
names only; the `Close` level of the MultiIndex is already dropped, as the
source does in both branches of its column-shape `if`). -/
structure Wide where
  dates : List Date
  cols : List (String × List (Option ℚ))
deriving DecidableEq, Repr

/-- `DataFrame.empty`: true when either axis has length zero. -/
def Wide.isEmpty (w : Wide) : Bool :=
  w.dates.isEmpty || w.cols.isEmpty

/-- Well-formedness of a wide table: no duplicate dates, no duplicate
column names, and every column as long as the date index. -/
def WF (w : Wide) : Prop :=
  w.dates.Nodup ∧ (w.cols.map Prod.fst).Nodup ∧
    ∀ c ∈ w.cols, c.2.length = w.dates.length

instance (w : Wide) : Decidable (WF w) := by
  unfold WF; infer_instance

/-- The data-model invariant on prices: every present cell is positive
(a zero or negative price is upstream corruption, never valid). -/
def PosCells (w : Wide) : Prop :=
  ∀ c ∈ w.cols, ∀ x ∈ c.2, 0 < x.getD 1

instance (w : Wide) : Decidable (PosCells w) := by
  unfold PosCells; infer_instance

/-- Every cell of the table is present (no missing values). -/
def AllSome (w : Wide) : Prop :=
  ∀ c ∈ w.cols, ∀ x ∈ c.2, x.isSome = true

instance (w : Wide) : Decidable (AllSome w) := by
  unfold AllSome; infer_instance

/-- The raw cell of column `j` at row `i` (`none` when out of range). -/
def cellAt (w : Wide) (i j : ℕ) : Option ℚ :=
  match w.cols.get? j with
  | none => none
  | some c => (c.2.get? i).getD none

/-- Keep the elements of a list whose position is marked `true` in a
Boolean mask (the embedding of Boolean-mask row selection `df[mask]` and of
row dropping). -/
def filterByMask {α : Type} : List Bool → List α → List α
  | b :: bs, x :: xs =>
      if b then x :: filterByMask bs xs else filterByMask bs xs
  | _, _ => []

/-- Forward fill with an accumulator carrying the last seen value:
`pandas.DataFrame.ffill` on one column. -/
def ffillAux : Option ℚ → List (Option ℚ) → List (Option ℚ)
  | _, [] => []
  | last, x :: xs =>
    match x with
    | some v => some v :: ffillAux (some v) xs
    | none => last :: ffillAux last xs

/-- `ffill` on one column (nothing to carry initially). -/
def ffillList (c : List (Option ℚ)) : List (Option ℚ) :=
  ffillAux none c

/-- Backward fill on one column: a missing cell takes the next known value
below it (`pandas.DataFrame.bfill`). -/
def bfillList : List (Option ℚ) → List (Option ℚ)
  | [] => []
  | x :: xs =>
    match x with
    | some v => some v :: bfillList xs
    | none => ((bfillList xs).head?.getD none) :: bfillList xs

/-- Elementwise `a / b - 1` with float-style missing propagation: a missing
operand, or a zero divisor (whose IEEE quotient is `inf` or `NaN`, never a
finite number), yields a non-finite result, modelled as `none`. -/
def divSub1 (b a : Option ℚ) : Option ℚ := do
  let x ← a
  let y ← b
  if y = 0 then none else pure (x / y - 1)

/-- `Series.shift(1)` on one column: one leading missing cell, last cell
dropped. -/
def shift1 (c : List (Option ℚ)) : List (Option ℚ) :=
  none :: c.dropLast

/-- `Series.pct_change()` on one column with `fill_method=None` (the
current pandas default; no imputation): `c / c.shift(1) - 1` elementwise. -/
def pctCol (c : List (Option ℚ)) : List (Option ℚ) :=
  (c.zip (shift1 c)).map (fun p => divSub1 p.2 p.1)

/-- One row of the long (tidy) table: date, ticker, close. -/
abbrev LongRow := Date × String × ℚ

/-- `to_long_close` of `app.py`: melt the wide table to
(Date, Ticker, Close) rows and drop the rows with a missing close.  The
source returns the (empty) input frame unchanged when it is empty, which as
a sequence of long rows is the empty sequence; pandas `melt` stacks the
columns in order, each paired with the date index. -/
def to_long_close (w : Wide) : List LongRow :=
  if w.isEmpty then []
  else
    w.cols.flatMap (fun c =>
      (w.dates.zip c.2).filterMap (fun p => p.2.map (fun v => (p.1, c.1, v))))

/-- `normalized_returns` of `app.py`: forward-fill then backward-fill each
column, then divide the whole frame by its first row and subtract `1`.
Empty input is returned unchanged. -/
def normalized_returns (w : Wide) : Wide :=
  if w.isEmpty then w
  else
    { dates := w.dates
      cols := w.cols.map (fun c =>
        (c.1,
          (bfillList (ffillList c.2)).map
            (divSub1 (((bfillList (ffillList c.2)).head?).getD none)))) }

/-- `daily_returns` of `app.py`: `pct_change()` per column, then
`dropna(how="all")` — rows where every column's return is missing are
removed.  Empty input is returned unchanged. -/
def daily_returns (w : Wide) : Wide :=
  if w.isEmpty then w
  else
    let pcols := w.cols.map (fun c => (c.1, pctCol c.2))
    let keep := (List.range w.dates.length).map (fun i =>
      pcols.any (fun c => ((c.2.get? i).getD none).isSome))
    { dates := filterByMask keep w.dates
      cols := pcols.map (fun c => (c.1, filterByMask keep c.2)) }

/-- The row mask used by `daily_returns`' `dropna(how="all")`: row `i` is
kept when some column's return at `i` is present. -/
def dailyKeep (w : Wide) : List Bool :=
  (List.range w.dates.length).map (fun i =>
    (w.cols.map (fun c => (c.1, pctCol c.2))).any
      (fun c => ((c.2.get? i).getD none).isSome))

/-- Look a date up in a date-indexed column: the cell paired with the first
matching date, `none` when the date is absent from the index. -/
def dateLookup (dates : List Date) (c : List (Option ℚ)) (d : Date) : Option ℚ :=
  (((dates.zip c).find? (fun p => p.1 = d)).map Prod.snd).getD none

/-- The column of a table with a given name (first match). -/
def colByName (w : Wide) (tk : String) : Option (List (Option ℚ)) :=
  (w.cols.find? (fun c => c.1 = tk)).map Prod.snd

/-- The value of ticker `tk` at date `d` in a table: `none` when the ticker
or the date is absent. -/
def valueAtDate (w : Wide) (tk : String) (d : Date) : Option ℚ :=
  match colByName w tk with
  | none => none
  | some c => dateLookup w.dates c d

/-- The daily simple return stated directly on the raw price cells of the
input table, exactly as the specification words it:
`return[t] = price[t] / price[t-1] - 1`, missing whenever the price at `t`
or at `t-1` is missing, with no imputation; the first row has no return. -/
def rawRet (w : Wide) (i j : ℕ) : Option ℚ :=
  match i with
  | 0 => none
  | Nat.succ k => do
    let a ← cellAt w (k + 1) j
    let b ← cellAt w k j
    pure (a / b - 1)

/-- January 1 of a year. -/
def janFirst (y : Int) : Date := ⟨y, 1, 1⟩

/-- `x / y - 1` on two optional cells (missing or zero divisor propagates
to missing, as in `divSub1`). -/
def ytdCell (a b : Option ℚ) : Option ℚ := do
  let x ← a
  let y ← b
  if y = 0 then none else pure (x / y - 1)

/-- The YTD metric of `app.py`: restrict the rows to dates on or after
January 1 of the as-of year; if any survive, forward-fill the restricted
frame and return `iloc[-1] / iloc[0] - 1` per column, otherwise return the
all-missing series `pd.Series(index=close_wide.columns)`. -/
def ytd (w : Wide) (asOfYear : Int) : List (String × Option ℚ) :=
  let mask := w.dates.map (fun d => dateLe (janFirst asOfYear) d)
  if mask.any id then
    w.cols.map (fun c =>
      (c.1,
        ytdCell (((ffillList (filterByMask mask c.2)).getLast?).getD none)
          (((ffillList (filterByMask mask c.2)).head?).getD none)))
  else w.cols.map (fun c => (c.1, (none : Option ℚ)))

/-- The same metric with the restricted window filled forward *and then
backward*, following the specification's words "matching the
cumulative-return fill policy" (the fill policy of `normalized_returns` is
`ffill` then `bfill`).  Stated only to be compared with `ytd`, which is the
translation of the source. -/
def ytdSpecFill (w : Wide) (asOfYear : Int) : List (String × Option ℚ) :=
  let mask := w.dates.map (fun d => dateLe (janFirst asOfYear) d)
  if mask.any id then
    w.cols.map (fun c =>
      (c.1,
        ytdCell
          (((bfillList (ffillList (filterByMask mask c.2))).getLast?).getD none)
          (((bfillList (ffillList (filterByMask mask c.2))).head?).getD none)))
  else w.cols.map (fun c => (c.1, (none : Option ℚ)))

/-- The trailing window of length `window` ending at position `i`
(shorter near the start of the series). -/
def trailingWin (window : ℕ) (c : List (Option ℚ)) (i : ℕ) : List (Option ℚ) :=
  (c.take (i + 1)).drop (i + 1 - window)

/-- The valid (non-missing) values inside the trailing window. -/
def winVals (window : ℕ) (c : List (Option ℚ)) (i : ℕ) : List ℚ :=
  (trailingWin window c i).filterMap id

/-- Sample variance (`ddof = 1`) of a list of rationals. -/
def sampleVarQ (vs : List ℚ) : ℚ :=
  ((vs.map (fun x => (x - vs.sum / (vs.length : ℚ)) ^ 2)).sum) /
    ((vs.length : ℚ) - 1)

/-- `Series.rolling(window).var()` with the pandas defaults for an integer
window: `min_periods = window` (so any missing entry inside a full window,
or insufficient history, gives a missing result) and `ddof = 1` (so a
window size below 2 can never produce a value: the float code divides by
`nobs - 1 = 0`). -/
def rollingVarList (window : ℕ) (c : List (Option ℚ)) : List (Option ℚ) :=
  (List.range c.length).map (fun i =>
    if (winVals window c i).length < window ∨ window < 2 then none
    else some (sampleVarQ (winVals window c i)))

/-- `Series.rolling(window).std() * factor * 100`: the square root of the
rolling variance, annualized and expressed as a percentage. -/
noncomputable def rollingVolList (window : ℕ) (factor : ℝ) (c : List (Option ℚ)) :
    List (Option ℝ) :=
  (rollingVarList window c).map (fun o =>
    o.map (fun v => Real.sqrt (v : ℝ) * factor * 100))

/-- The `vol30` metric of `app.py` applied to one table:
`daily_returns(close_wide).rolling(30).std().iloc[-1] * sqrt(252) * 100`,
per column.  (`iloc[-1]` on a frame with no rows raises; the last row is
taken here with `getLast?`, and the theorems about this metric carry the
corresponding nonemptiness facts.) -/
noncomputable def vol30 (w : Wide) : List (String × Option ℝ) :=
  (daily_returns w).cols.map (fun c =>
    (c.1, ((rollingVolList 30 (Real.sqrt 252) c.2).getLast?).getD none))

/-- The pairwise-complete observations of two aligned optional columns:
the positions where both are present. -/
def pairObs (c d : List (Option ℚ)) : List (ℚ × ℚ) :=
  (c.zip d).filterMap (fun p => do
    let a ← p.1
    let b ← p.2
    pure (a, b))

/-- Mean of the first components of the overlapping pairs. -/
def corrMeanFst (ps : List (ℚ × ℚ)) : ℚ :=
  (ps.map Prod.fst).sum / (ps.length : ℚ)

/-- Mean of the second components of the overlapping pairs. -/
def corrMeanSnd (ps : List (ℚ × ℚ)) : ℚ :=
  (ps.map Prod.snd).sum / (ps.length : ℚ)

/-- Sum of squared deviations of the first components. -/
def corrVarFst (ps : List (ℚ × ℚ)) : ℚ :=
  (ps.map (fun p => (p.1 - corrMeanFst ps) ^ 2)).sum

/-- Sum of squared deviations of the second components. -/
def corrVarSnd (ps : List (ℚ × ℚ)) : ℚ :=
  (ps.map (fun p => (p.2 - corrMeanSnd ps) ^ 2)).sum

/-- Sum of products of deviations (the unnormalized covariance). -/
def corrCov (ps : List (ℚ × ℚ)) : ℚ :=
  (ps.map (fun p => (p.1 - corrMeanFst ps) * (p.2 - corrMeanSnd ps))).sum

/-- Pearson correlation of a list of observation pairs: missing when the
list is empty (fewer than `min_periods = 1` overlapping observations) or
when a zero variance makes the float divisor zero (the `0/0` that prints
as `NaN`). -/
noncomputable def corrOf (ps : List (ℚ × ℚ)) : Option ℝ :=
  if ps = [] then none
  else
    if corrVarFst ps = 0 ∨ corrVarSnd ps = 0 then none
    else some
      ((corrCov ps : ℝ) /
        (Real.sqrt ((corrVarFst ps : ℚ) : ℝ) *
         Real.sqrt ((corrVarSnd ps : ℚ) : ℝ)))

/-- One entry of `DataFrame.corr()` (Pearson, pairwise-complete
observations, `min_periods = 1`): the correlation of the positions where
both columns are present. -/
noncomputable def corrEntry (c d : List (Option ℚ)) : Option ℝ :=
  corrOf (pairObs c d)

/-- The return column of the `j`-th ticker of `daily_returns(close_wide)`
(an empty column when `j` is out of range). -/
def retColAt (w : Wide) (j : ℕ) : List (Option ℚ) :=
  (((daily_returns w).cols.get? j).map Prod.snd).getD []

/-- The correlation tab of `app.py`:
`daily_returns(close_wide).corr()`, indexed by column position. -/
noncomputable def corrMatrix (w : Wide) (i j : ℕ) : Option ℝ :=
  corrEntry (retColAt w i) (retColAt w j)

/-- The number of valid (non-missing) entries of a column. -/
def obsCount (c : List (Option ℚ)) : ℕ :=
  (c.filterMap id).length

/-- The (unnormalized) variance of the valid entries of a column: the sum
of squared deviations from their mean. -/
def colVarQ (c : List (Option ℚ)) : ℚ :=
  ((c.filterMap id).map
    (fun x => (x - (c.filterMap id).sum / ((c.filterMap id).length : ℚ)) ^ 2)).sum

/-- Rename the benchmark frame's first column to `"Benchmark"`:
`rename(columns={bench_close.columns[0]: "Benchmark"})` renames every
column bearing that first name. -/
def renameFirst (cols : List (String × List (Option ℚ))) :
    List (String × List (Option ℚ)) :=
  match cols with
  | [] => []
  | (n0, _) :: _ =>
    cols.map (fun c => (if c.1 = n0 then "Benchmark" else c.1, c.2))

/-- `close_wide.join(other, how="inner")`: keep the dates present in both
indexes (in the left index's order), restrict the left columns to them, and
align the right columns to them by date lookup. -/
def innerJoin (left right : Wide) : Wide :=
  { dates := left.dates.filter (fun d => right.dates.contains d)
    cols :=
      left.cols.map (fun c =>
        (c.1, filterByMask (left.dates.map (fun d => right.dates.contains d)) c.2)) ++
      right.cols.map (fun c =>
        (c.1, (left.dates.filter (fun d => right.dates.contains d)).map
          (fun d => dateLookup right.dates c.2 d))) }

/-- `merged / merged.iloc[0] - 1`: the normalization the benchmark block
applies to the joined frame (note: no forward/backward fill). -/
def benchNorm (w : Wide) : Wide :=
  { dates := w.dates
    cols := w.cols.map (fun c =>
      (c.1, c.2.map (divSub1 ((c.2.head?).getD none)))) }

/-- Column-name collision between the renamed benchmark frame and the
price frame (`join` refuses overlapping column names). -/
def benchCollides (close bench : Wide) : Bool :=
  ((renameFirst bench.cols).map Prod.fst).any
    (fun n => (close.cols.map Prod.fst).contains n)

/-- The date index of the joined frame of the benchmark block. -/
def benchMergedDates (close bench : Wide) : List Date :=
  (innerJoin close ⟨bench.dates, renameFirst bench.cols⟩).dates

/-- The benchmark-comparison block of `app.py` (the body of its `try`):
take `bench_close.columns[0]` (an `IndexError` when there is no column),
rename that column to `"Benchmark"`, inner-join onto `close_wide` (a
`ValueError` when the names collide), and normalize the joined frame by its
first row (an `IndexError` from `iloc[0]` when the join is empty).  Any
such exception is caught by the enclosing handler and surfaced as a
warning; there is no dedicated alignment error. -/
def benchmarkBlock (close bench : Wide) : Except String Wide :=
  if bench.cols.isEmpty then
    Except.error "IndexError: index 0 is out of bounds"
  else
    if benchCollides close bench then
      Except.error "ValueError: columns overlap but no suffix specified"
    else
      if (benchMergedDates close bench).isEmpty then
        Except.error "IndexError: single positional indexer is out-of-bounds"
      else
        Except.ok (benchNorm (innerJoin close ⟨bench.dates, renameFirst bench.cols⟩))

/-- Whether an `Except` is the error case. -/
def isErr {α : Type} (e : Except String α) : Bool :=
  match e with
  | Except.error _ => true
  | Except.ok _ => false

/-- Pivot a sequence of long rows back to wide form: the close of the first
row carrying the given date and ticker, absent when no such row exists. -/
def rePivot (rows : List LongRow) (d : Date) (tk : String) : Option ℚ :=
  ((rows.find? (fun r => r.1 = d ∧ r.2.1 = tk)).map (fun r => r.2.2))

/-- Concrete input for claim C9's witness: a date row but no ticker
columns (an empty frame in the pandas sense). -/
def w9 : Wide := ⟨[⟨2024, 1, 1⟩], []⟩

/-- Concrete input for claim C10: a present but zero first-row price
(invalid per the data model, unchecked by the code) followed by a valid
price. -/
def w10 : Wide := ⟨[⟨2024, 1, 1⟩, ⟨2024, 1, 2⟩], [("A", [some 0, some 2])]⟩

/-- Concrete price table for claim C3: one ticker over three days. -/
def wClose3 : Wide :=
  ⟨[⟨2024, 1, 1⟩, ⟨2024, 1, 2⟩, ⟨2024, 1, 3⟩], [("A", [some 1, none, some 2])]⟩

/-- Concrete benchmark table for claim C3 with exactly two columns. -/
def wBench3 : Wide :=
  ⟨[⟨2024, 1, 1⟩, ⟨2024, 1, 2⟩, ⟨2024, 1, 3⟩],
    [("S1", [some 1, some 1, some 1]), ("S2", [some 2, some 2, some 2])]⟩

/-- Concrete price table for claim C4: an interior missing price. -/
def wClose4 : Wide :=
  ⟨[⟨2024, 1, 1⟩, ⟨2024, 1, 2⟩, ⟨2024, 1, 3⟩], [("A", [some 1, none, some 2])]⟩

/-- Concrete single-column benchmark table for claim C4. -/
def wBench4 : Wide :=
  ⟨[⟨2024, 1, 1⟩, ⟨2024, 1, 2⟩, ⟨2024, 1, 3⟩], [("SPX", [some 1, some 1, some 1])]⟩

/-- The joined table of claim C4's counterexample: `wClose4` inner-joined
with the renamed `wBench4`, exactly as the benchmark block builds it. -/
def wJoin4 : Wide := innerJoin wClose4 ⟨wBench4.dates, renameFirst wBench4.cols⟩

/-- All-present joined table for claim C4's amended statement's witness. -/
def wJoin4w : Wide :=
  ⟨[⟨2024, 1, 1⟩, ⟨2024, 1, 2⟩],
    [("A", [some 1, some 2]), ("Benchmark", [some 4, some 5])]⟩

/-- Concrete table for claim C5's counterexample: ticker A loses its last
price, so its return column keeps a missing entry inside the trailing
window (ticker B keeps the rows alive through `dropna(how="all")`). -/
def w5cex : Wide :=
  ⟨[⟨2024, 1, 1⟩, ⟨2024, 1, 2⟩, ⟨2024, 1, 3⟩, ⟨2024, 1, 4⟩],
    [("A", [some 1, some 2, some 4, none]), ("B", [some 1, some 2, some 4, some 8])]⟩

/-- Concrete table for claim C5's witness: returns `[1, 3]`. -/
def w5wit : Wide :=
  ⟨[⟨2024, 1, 1⟩, ⟨2024, 1, 2⟩, ⟨2024, 1, 3⟩], [("A", [some 1, some 2, some 8])]⟩

/-- Concrete table for claim C6: the first row inside the 2025 window is
missing, later rows are valid. -/
def w6 : Wide :=
  ⟨[⟨2024, 12, 31⟩, ⟨2025, 1, 2⟩, ⟨2025, 1, 3⟩], [("A", [some 1, none, some 2])]⟩

/-- Concrete table for claim C7's counterexample: a constant price series,
whose daily returns are `[0, 0]` — two valid observations with zero
variance. -/
def w7 : Wide :=
  ⟨[⟨2024, 1, 1⟩, ⟨2024, 1, 2⟩, ⟨2024, 1, 3⟩], [("A", [some 1, some 1, some 1])]⟩

/-- Concrete table for claim C7's witness (diagonal case): returns `[1, 3]`
with nonzero variance. -/
def w7a : Wide :=
  ⟨[⟨2024, 1, 1⟩, ⟨2024, 1, 2⟩, ⟨2024, 1, 3⟩], [("A", [some 1, some 2, some 8])]⟩

/-- Concrete table for claim C7's witness (disjoint case): the two tickers
trade on fully disjoint days, so their return columns share no position
where both are present. -/
def w7b : Wide :=
  ⟨[⟨2024, 1, 1⟩, ⟨2024, 1, 2⟩, ⟨2024, 1, 3⟩, ⟨2024, 1, 4⟩, ⟨2024, 1, 5⟩],
    [("A", [some 1, some 2, none, none, some 4]),
     ("B", [none, some 1, some 1, some 2, none])]⟩

/-- Concrete table for claim C1's witness: two tickers, one with a missing
middle price. -/
def w1 : Wide :=
  ⟨[⟨2024, 1, 1⟩, ⟨2024, 1, 2⟩, ⟨2024, 1, 3⟩],
    [("A", [some 1, none, some 2]), ("B", [some 1, some 2, some 4])]⟩

/-- Concrete table for claim C2's witness: a column with a missing leading
price and a column with no observation at all. -/
def w2 : Wide :=
  ⟨[⟨2024, 1, 1⟩, ⟨2024, 1, 2⟩],
    [("A", [none, some 3]), ("B", [none, none])]⟩

/-- Concrete table for claim C8's witness. -/
def w8 : Wide :=
  ⟨[⟨2024, 1, 1⟩, ⟨2024, 1, 2⟩],
    [("A", [some 1, none]), ("B", [none, some 2])]⟩

/-- C9 (confirmed): for an empty `PriceTable` input — no rows or no
tickers, which is exactly `DataFrame.empty` — `to_long_close`,
`daily_returns` and `normalized_returns` all return an empty output (the
guarded early return of the input itself) and, being total functions of the
input, never raise. -/
theorem empty_input_transforms (w : Wide) (h : w.isEmpty = true) :
    to_long_close w = [] ∧ daily_returns w = w ∧ normalized_returns w = w ∧
      (daily_returns w).isEmpty = true ∧ (normalized_returns w).isEmpty = true := by
  refine ⟨?_, ?_, ?_, ?_, ?_⟩ <;> simp [to_long_close, daily_returns, normalized_returns, h]

/-- Witness for `empty_input_transforms` at a frame with one date row and
no ticker columns. -/
theorem empty_input_transforms_check :
    to_long_close w9 = [] ∧ daily_returns w9 = w9 ∧ normalized_returns w9 = w9 ∧
      (daily_returns w9).isEmpty = true ∧ (normalized_returns w9).isEmpty = true :=
  empty_input_transforms w9 (by decide)

/-- C10 (confirmed): `normalized_returns` does not guard the division by
the first row.  On a table whose (filled) first-row price is `0` — invalid
per the data-model invariant but unchecked — every quotient of the column
is `x / 0`, an IEEE `inf`/`NaN`, i.e. a non-finite value (modelled `none`),
even though the input held a later valid price; no error is reported (the
function is total and returns normally). -/
theorem normalized_returns_zero_first_row :
    (bfillList (ffillList [some 0, some 2])).head? = some (some 0) ∧
      normalized_returns w10 = ⟨w10.dates, [("A", [none, none])]⟩ ∧
      cellAt w10 1 0 = some 2 := by
  refine ⟨by decide, by decide, by decide⟩

/-- C3 (counterexample): a benchmark table with exactly two columns does
not make the benchmark block fail — the block renames the first column to
`"Benchmark"`, inner-joins, and normalizes, producing a joined table, so
no `AlignmentError` (nor any exception) arises. -/
theorem benchmark_block_two_columns_ok :
    wBench3.cols.length = 2 ∧ isErr (benchmarkBlock wClose3 wBench3) = false := by
  refine ⟨by decide, by decide⟩

/-- C3 (amended): the benchmark block fails exactly when the benchmark
table has zero columns (`columns[0]` raises `IndexError`), or a renamed
benchmark column name collides with a price column (`join` raises
`ValueError`), or the inner join is empty (`iloc[0]` raises `IndexError`,
which covers a benchmark with zero rows); the exception is generic and
caught as a warning — there is no dedicated `AlignmentError` — and a
benchmark with more than one column is not, by itself, rejected. -/
theorem benchmark_block_error_iff (close bench : Wide) :
    isErr (benchmarkBlock close bench) =
      (bench.cols.isEmpty || benchCollides close bench ||
        (benchMergedDates close bench).isEmpty) := by
  by_cases h1 : bench.cols.isEmpty <;>
    by_cases h2 : benchCollides close bench <;>
      by_cases h3 : (benchMergedDates close bench).isEmpty <;>
        simp [benchmarkBlock, isErr, h1, h2, h3]

/-- C4 (counterexample): on the joined table built by the benchmark block
from `wClose4` and `wBench4`, the block's normalization
(`merged / merged.iloc[0] - 1`, no fill) differs from `normalized_returns`
(which forward- and backward-fills first): the interior missing cell stays
missing in one and becomes `0` in the other. -/
theorem bench_norm_ne_normalized :
    benchmarkBlock wClose4 wBench4 = Except.ok (benchNorm wJoin4) ∧
      benchNorm wJoin4 ≠ normalized_returns wJoin4 := by
  constructor
  · show benchmarkBlock wClose4 wBench4 = _
    rw [benchmarkBlock, if_neg (by decide), if_neg (by decide), if_neg (by decide)]
    rfl
  · norm_num [benchNorm, normalized_returns, Wide.isEmpty, divSub1, bfillList,
      ffillList, ffillAux, dateLookup, filterByMask, innerJoin, renameFirst,
      wClose4, wBench4, wJoin4, Wide.mk.injEq]
    exact fun h => Option.noConfusion h

/-- C6 (counterexample): `ytd` (forward fill only, as the source computes
it) disagrees with the variant that applies the cumulative-return fill
policy (forward then backward fill) on a table whose first in-window price
is missing: the source yields an undefined YTD return for the ticker, the
claimed policy a defined one. -/
theorem ytd_ne_specFill :
    ytd w6 2025 = [("A", none)] ∧ ytdSpecFill w6 2025 = [("A", some 0)] ∧
      ytd w6 2025 ≠ ytdSpecFill w6 2025 := by
  have h1 : ytd w6 2025 = [("A", none)] := by
    norm_num [ytd, w6, dateLe, janFirst, filterByMask, ffillList, ffillAux, ytdCell]
  have h2 : ytdSpecFill w6 2025 = [("A", some 0)] := by
    norm_num [ytdSpecFill, w6, dateLe, janFirst, filterByMask, ffillList,
      ffillAux, bfillList, ytdCell]
  refine ⟨h1, h2, by rw [h1, h2]; simp⟩

/-- Positional description of `zip`: when both lists have an element at
position `i`, so does the zip, and it is the pair. -/
theorem zip_get?_some {α β : Type} (l1 : List α) (l2 : List β) (i : ℕ)
    (a : α) (b : β) (h1 : l1.get? i = some a) (h2 : l2.get? i = some b) :
    (l1.zip l2).get? i = some (a, b) := by
  induction l1 generalizing l2 i with
  | nil => simp at h1
  | cons x xs ih =>
    cases l2 with
    | nil => simp at h2
    | cons y ys =>
      cases i with
      | zero => simp_all
      | succ k => simpa using ih ys k h1 h2

/-- A member of a zip comes from a common position of the two lists. -/
theorem mem_zip_pos {α β : Type} (l1 : List α) (l2 : List β) (p : α × β)
    (hp : p ∈ l1.zip l2) :
    ∃ i, l1.get? i = some p.1 ∧ l2.get? i = some p.2 := by
  induction l1 generalizing l2 with
  | nil => simp at hp
  | cons x xs ih =>
    cases l2 with
    | nil => simp at hp
    | cons y ys =>
      rcases List.mem_cons.mp hp with h | h
      · exact ⟨0, by simp [h]⟩
      · obtain ⟨i, h1, h2⟩ := ih ys h
        exact ⟨i + 1, by simpa using h1, by simpa using h2⟩

/-- Mask filtering yields a sublist. -/
theorem filterByMask_sublist {α : Type} (m : List Bool) (l : List α) :
    (filterByMask m l).Sublist l := by
  induction m generalizing l with
  | nil => cases l <;> simp [filterByMask]
  | cons b bs ih =>
    cases l with
    | nil => simp [filterByMask]
    | cons x xs =>
      by_cases hb : b = true
      · simpa [filterByMask, hb] using List.Sublist.cons₂ x (ih xs)
      · simp only [Bool.not_eq_true] at hb
        simpa [filterByMask, hb] using List.Sublist.cons x (ih xs)

/-- First-match lookup on an association list with distinct keys finds the
`j`-th entry when asked for the `j`-th key. -/
theorem find_col_nodup {β : Type} (cols : List (String × β))
    (hnd : (cols.map Prod.fst).Nodup) (j : ℕ) (hj : j < cols.length) :
    cols.find? (fun c => c.1 = (cols.get ⟨j, hj⟩).1) = some (cols.get ⟨j, hj⟩) := by
  induction cols generalizing j with
  | nil => simp at hj
  | cons c0 rest ih =>
    simp only [List.map_cons, List.nodup_cons] at hnd
    cases j with
    | zero => simp
    | succ k =>
      have hk : k < rest.length := by simpa using hj
      have hne : ¬(c0.1 = (rest.get ⟨k, hk⟩).1) := by
        intro h
        exact hnd.1 (h ▸ (List.mem_map.mpr ⟨rest.get ⟨k, hk⟩, List.get_mem _ _ _, rfl⟩))
      have := ih hnd.2 k hk
      simp only [List.get_cons_succ]
      rw [List.find?_cons_of_neg _ (by simpa using hne)]
      exact this

/-- A date absent from the index looks up to `none`. -/
theorem dateLookup_not_mem (dates : List Date) (c : List (Option ℚ)) (d : Date)
    (hd : d ∉ dates) : dateLookup dates c d = none := by
  have : (dates.zip c).find? (fun p => p.1 = d) = none := by
    rw [List.find?_eq_none]
    intro p hp
    have := (List.mem_zip hp).1
    simp only [decide_eq_true_eq]
    intro h
    exact hd (h ▸ this)
  simp [dateLookup, this]

/-- Unfolding `dateLookup` over a `cons` on both lists. -/
theorem dateLookup_cons (d' : Date) (ds : List Date) (x : Option ℚ)
    (xs : List (Option ℚ)) (d : Date) :
    dateLookup (d' :: ds) (x :: xs) d =
      if d' = d then x else dateLookup ds xs d := by
  by_cases h : d' = d
  · simp [dateLookup, List.find?_cons_of_pos, h]
  · rw [if_neg h]
    simp only [dateLookup, List.zip_cons_cons]
    rw [List.find?_cons_of_neg _ (by simpa using h)]

/-- Looking the `i`-th date up in the mask-filtered table gives the `i`-th
cell when the mask keeps row `i`, and `none` when it drops it. -/
theorem dateLookup_fbm (m : List Bool) (dates : List Date)
    (c : List (Option ℚ)) (i : ℕ) (d : Date) (b : Bool) (x : Option ℚ)
    (hnd : dates.Nodup) (hd : dates.get? i = some d) (hm : m.get? i = some b)
    (hx : c.get? i = some x) :
    dateLookup (filterByMask m dates) (filterByMask m c) d =
      if b then x else none := by
  induction m generalizing dates c i with
  | nil => simp at hm
  | cons b0 bs ih =>
    cases dates with
    | nil => simp at hd
    | cons d0 ds =>
      cases c with
      | nil => simp at hx
      | cons x0 xs =>
        rw [List.nodup_cons] at hnd
        cases i with
        | zero =>
          simp only [List.get?_cons_zero, Option.some.injEq] at hd hm hx
          rw [← hd, ← hm, ← hx]
          cases b0 with
          | true =>
            simp only [filterByMask, if_true]
            simp [dateLookup_cons]
          | false =>
            simp only [filterByMask, Bool.false_eq_true, if_false]
            exact dateLookup_not_mem _ _ _
              (fun hmem => hnd.1 ((filterByMask_sublist bs ds).mem hmem))
        | succ k =>
          simp only [List.get?_cons_succ] at hd hm hx
          have hrec := ih ds xs k hnd.2 hd hm hx
          have hdm : d ∈ ds := List.get?_mem hd
          cases b0 with
          | true =>
            simp only [filterByMask, if_true]
            rw [dateLookup_cons,
              if_neg (show ¬(d0 = d) from fun h => hnd.1 (h ▸ hdm))]
            exact hrec
          | false =>
            simpa [filterByMask] using hrec

/-- Forward fill preserves the column length. -/
theorem length_ffillAux (l : Option ℚ) (c : List (Option ℚ)) :
    (ffillAux l c).length = c.length := by
  induction c generalizing l with
  | nil => rfl
  | cons x xs ih => cases x <;> simp [ffillAux, ih]

/-- Backward fill preserves the column length. -/
theorem length_bfillList (c : List (Option ℚ)) :
    (bfillList c).length = c.length := by
  induction c with
  | nil => rfl
  | cons x xs ih => cases x <;> simp [bfillList, ih]

/-- Forward fill does not change the first cell. -/
theorem ffillList_head? (c : List (Option ℚ)) :
    (ffillList c).head? = c.head? := by
  cases c with
  | nil => rfl
  | cons x xs => cases x <;> simp [ffillList, ffillAux]

/-- Forward fill of a column with no observation is the identity. -/
theorem ffillAux_of_forall_none (c : List (Option ℚ))
    (h : ∀ x ∈ c, x = none) : ffillAux none c = c := by
  induction c with
  | nil => rfl
  | cons x xs ih =>
    have hx : x = none := h x (by simp)
    subst hx
    simp [ffillAux, ih (fun y hy => h y (by simp [hy]))]

/-- Backward fill of a column with no observation is the identity. -/
theorem bfillList_of_forall_none (c : List (Option ℚ))
    (h : ∀ x ∈ c, x = none) : bfillList c = c := by
  induction c with
  | nil => rfl
  | cons x xs ih =>
    have hx : x = none := h x (by simp)
    subst hx
    have hxs := ih (fun y hy => h y (by simp [hy]))
    rw [bfillList, hxs]
    cases xs with
    | nil => rfl
    | cons y ys =>
      have hy : y = none := h y (by simp)
      simp [hy]

/-- Forward fill of a column with every cell present is the identity. -/
theorem ffillAux_of_forall_isSome (l : Option ℚ) (c : List (Option ℚ))
    (h : ∀ x ∈ c, x.isSome = true) : ffillAux l c = c := by
  induction c generalizing l with
  | nil => rfl
  | cons x xs ih =>
    cases x with
    | none => simpa using h none (by simp)
    | some v => simp [ffillAux, ih (some v) (fun y hy => h y (by simp [hy]))]

/-- Backward fill of a column with every cell present is the identity. -/
theorem bfillList_of_forall_isSome (c : List (Option ℚ))
    (h : ∀ x ∈ c, x.isSome = true) : bfillList c = c := by
  induction c with
  | nil => rfl
  | cons x xs ih =>
    cases x with
    | none => simpa using h none (by simp)
    | some v => simp [bfillList, ih (fun y hy => h y (by simp [hy]))]

/-- When a column has at least one observation, the first cell of its
forward-then-backward fill is that first observation (a value of the
column). -/
theorem bfill_ffill_head_of_any (c : List (Option ℚ))
    (h : c.any Option.isSome = true) :
    ∃ v : ℚ, some v ∈ c ∧ (bfillList (ffillList c)).head? = some (some v) := by
  induction c with
  | nil => simp at h
  | cons x xs ih =>
    cases x with
    | some v =>
      refine ⟨v, by simp, ?_⟩
      simp [ffillList, ffillAux, bfillList]
    | none =>
      have hxs : xs.any Option.isSome = true := by simpa using h
      obtain ⟨v, hv, hhead⟩ := ih hxs
      refine ⟨v, by simp [hv], ?_⟩
      have hff : ffillList (none :: xs) = none :: ffillList xs := by
        simp [ffillList, ffillAux]
      rw [hff, bfillList, hhead]
      simp

/-- `shift1` at position `0` is the missing cell. -/
theorem shift1_get?_zero (c : List (Option ℚ)) :
    (shift1 c).get? 0 = some none := by
  simp [shift1]

/-- `shift1` at position `k + 1` is the original cell at `k` (within
bounds). -/
theorem shift1_get?_succ (c : List (Option ℚ)) (k : ℕ) (hk : k + 1 < c.length) :
    (shift1 c).get? (k + 1) = c.get? k := by
  simp only [shift1, List.get?_cons_succ, List.dropLast_eq_take]
  exact List.get?_take (by omega)

/-- `pct_change` preserves the column length. -/
theorem length_pctCol (c : List (Option ℚ)) : (pctCol c).length = c.length := by
  cases c with
  | nil => rfl
  | cons x xs =>
    simp [pctCol, shift1, List.length_zip]

/-- Positional value of `pct_change`: the elementwise `divSub1` of the
cell and the shifted cell. -/
theorem pctCol_get? (c : List (Option ℚ)) (i : ℕ) (x y : Option ℚ)
    (hx : c.get? i = some x) (hy : (shift1 c).get? i = some y) :
    (pctCol c).get? i = some (divSub1 y x) := by
  rw [pctCol, List.get?_map, zip_get?_some c (shift1 c) i x y hx hy]
  rfl

/-- C2 (confirmed): on a non-empty wide table with valid (positive)
prices, `normalized_returns` — which forward-fills then backward-fills each
ticker column and divides by the filled first row — keeps the column names
and the date index length; its row 0 is exactly `0.0` for every ticker
column with at least one observation; and a ticker column with no
observation at all stays entirely missing. -/
theorem normalized_returns_row0 (w : Wide) (hne : w.isEmpty = false)
    (hwf : WF w) (hpos : PosCells w) (j : ℕ) (hj : j < w.cols.length) :
    ∃ c', (normalized_returns w).cols.get? j =
        some ((w.cols.get ⟨j, hj⟩).1, c') ∧
      c'.length = w.dates.length ∧
      ((w.cols.get ⟨j, hj⟩).2.any Option.isSome = true →
        c'.get? 0 = some (some 0)) ∧
      ((w.cols.get ⟨j, hj⟩).2.any Option.isSome = false →
        c' = List.replicate w.dates.length none) := by
  have hgd : w.isEmpty ≠ true := by simp [hne]
  have hcol : w.cols.get? j = some (w.cols.get ⟨j, hj⟩) := List.get?_eq_get hj
  have hclen : (w.cols.get ⟨j, hj⟩).2.length = w.dates.length :=
    hwf.2.2 _ (List.get_mem _ _ _)
  refine ⟨(bfillList (ffillList (w.cols.get ⟨j, hj⟩).2)).map
      (divSub1 (((bfillList (ffillList (w.cols.get ⟨j, hj⟩).2)).head?).getD none)),
    ?_, ?_, ?_, ?_⟩
  · rw [normalized_returns, if_neg hgd]
    simp only [List.get?_map, hcol]
    rfl
  · simpa [length_bfillList, ffillList, length_ffillAux] using hclen
  · intro hany
    obtain ⟨v, hv, hhead⟩ := bfill_ffill_head_of_any _ hany
    have hvpos : 0 < v := by
      have := hpos _ (List.get_mem _ _ _) _ hv
      simpa using this
    have hvne : v ≠ 0 := ne_of_gt hvpos
    rw [List.get?_zero, List.head?_map, hhead]
    simp [divSub1, hvne, div_self hvne]
  · intro hnone
    have hall : ∀ x ∈ (w.cols.get ⟨j, hj⟩).2, x = none := by
      intro x hx
      cases x with
      | none => rfl
      | some v =>
        exfalso
        have : (w.cols.get ⟨j, hj⟩).2.any Option.isSome = true :=
          List.any_eq_true.mpr ⟨some v, hx, rfl⟩
        rw [hnone] at this
        exact Bool.false_ne_true this
    have hff : ffillList (w.cols.get ⟨j, hj⟩).2 = (w.cols.get ⟨j, hj⟩).2 :=
      ffillAux_of_forall_none _ hall
    rw [hff, bfillList_of_forall_none _ hall]
    rw [List.eq_replicate_iff]
    refine ⟨by simpa using hclen, ?_⟩
    intro y hy
    obtain ⟨x, hx, hxy⟩ := List.mem_map.mp hy
    rw [hall x hx] at hxy
    simp [divSub1] at hxy
    exact hxy.symm

/-- Witness for `normalized_returns_row0` on a concrete table: column "A"
has an observation (so its row 0 is `0.0`), column "B" has none (so it
stays entirely missing). -/
theorem normalized_returns_row0_check :
    w2.isEmpty = false ∧ WF w2 ∧ PosCells w2 ∧
      (∃ c', (normalized_returns w2).cols.get? 0 =
          some ((w2.cols.get ⟨0, by decide⟩).1, c') ∧
        c'.length = w2.dates.length ∧
        ((w2.cols.get ⟨0, by decide⟩).2.any Option.isSome = true →
          c'.get? 0 = some (some 0)) ∧
        ((w2.cols.get ⟨0, by decide⟩).2.any Option.isSome = false →
          c' = List.replicate w2.dates.length none)) ∧
      (∃ c', (normalized_returns w2).cols.get? 1 =
          some ((w2.cols.get ⟨1, by decide⟩).1, c') ∧
        c'.length = w2.dates.length ∧
        ((w2.cols.get ⟨1, by decide⟩).2.any Option.isSome = true →
          c'.get? 0 = some (some 0)) ∧
        ((w2.cols.get ⟨1, by decide⟩).2.any Option.isSome = false →
          c' = List.replicate w2.dates.length none)) :=
  ⟨rfl, by decide, by decide,
    normalized_returns_row0 w2 rfl (by decide) (by decide) 0 (by decide),
    normalized_returns_row0 w2 rfl (by decide) (by decide) 1 (by decide)⟩

/-- Unfolding `daily_returns` on a non-empty table in terms of the
`dailyKeep` row mask. -/
theorem daily_returns_eq (w : Wide) (hne : w.isEmpty = false) :
    daily_returns w =
      { dates := filterByMask (dailyKeep w) w.dates
        cols := w.cols.map (fun c =>
          (c.1, filterByMask (dailyKeep w) (pctCol c.2))) } := by
  rw [daily_returns, if_neg (by simp [hne])]
  simp only [List.map_map]
  rfl

/-- Looking a named column up in a table with distinct column names gives
that column. -/
theorem colByName_of_nodup (w' : Wide) (hnd : (w'.cols.map Prod.fst).Nodup)
    (j : ℕ) (hj : j < w'.cols.length) :
    colByName w' ((w'.cols.get ⟨j, hj⟩).1) = some ((w'.cols.get ⟨j, hj⟩).2) := by
  unfold colByName
  rw [find_col_nodup w'.cols hnd j hj]
  rfl

/-- The `pct_change` cell at position `i` equals the raw-series return
`rawRet` there, provided present prices are positive (so the divisor is
never the invalid `0`). -/
theorem rawRet_eq_pct (w : Wide) (hpos : PosCells w) (j : ℕ)
    (hj : j < w.cols.length)
    (hlen : (w.cols.get ⟨j, hj⟩).2.length = w.dates.length) (i : ℕ)
    (hi : i < w.dates.length) (x : Option ℚ)
    (hx : (pctCol (w.cols.get ⟨j, hj⟩).2).get? i = some x) :
    x = rawRet w i j := by
  have hcol : w.cols.get? j = some (w.cols.get ⟨j, hj⟩) := List.get?_eq_get hj
  have hic : i < (w.cols.get ⟨j, hj⟩).2.length := by omega
  obtain ⟨xa, hxa⟩ : ∃ a, (w.cols.get ⟨j, hj⟩).2.get? i = some a :=
    ⟨_, List.get?_eq_get hic⟩
  cases i with
  | zero =>
    have h0 := pctCol_get? (w.cols.get ⟨j, hj⟩).2 0 xa none hxa
      (shift1_get?_zero _)
    rw [h0] at hx
    injection hx with hx
    rw [← hx]
    cases xa <;> simp [divSub1, rawRet]
  | succ k =>
    have hkc : k < (w.cols.get ⟨j, hj⟩).2.length := by omega
    obtain ⟨xb, hxb⟩ : ∃ b, (w.cols.get ⟨j, hj⟩).2.get? k = some b :=
      ⟨_, List.get?_eq_get hkc⟩
    have hsh : (shift1 (w.cols.get ⟨j, hj⟩).2).get? (k + 1) = some xb := by
      rw [shift1_get?_succ _ k hic]; exact hxb
    have h1 := pctCol_get? (w.cols.get ⟨j, hj⟩).2 (k + 1) xa xb hxa hsh
    rw [h1] at hx
    injection hx with hx
    rw [← hx]
    have hcolE : w.cols[j]? = some (w.cols[j]) := by
      rw [← List.get?_eq_getElem?]; exact hcol
    have hxaE : (w.cols[j]).2[k + 1]? = some xa := by
      rw [← List.get?_eq_getElem?]; exact hxa
    have hxbE : (w.cols[j]).2[k]? = some xb := by
      rw [← List.get?_eq_getElem?]; exact hxb
    have hca : cellAt w (k + 1) j = xa := by simp [cellAt, hcolE, hxaE]
    have hcb : cellAt w k j = xb := by simp [cellAt, hcolE, hxbE]
    cases xa with
    | none => simp [divSub1, rawRet, hca, hcb]
    | some a =>
      cases xb with
      | none => simp [divSub1, rawRet, hca, hcb]
      | some b =>
        have hbpos : 0 < b := by
          have hmem : some b ∈ (w.cols.get ⟨j, hj⟩).2 := List.get?_mem hxb
          simpa using hpos _ (List.get_mem _ _ _) _ hmem
        simp [divSub1, rawRet, hca, hcb, hbpos.ne']

/-- C1 (confirmed): the value of `daily_returns` for ticker column `j` at
the `i`-th input date equals the raw-series return
`price[i] / price[i-1] - 1` computed on the *unfilled* prices: missing
whenever the price at `i` or `i-1` is missing (whether the row was dropped
by `dropna(how="all")` or the cell is missing in a kept row), and never
imputed.  Hypotheses: well-formed table and valid (positive) prices. -/
theorem daily_returns_raw (w : Wide) (hwf : WF w) (hpos : PosCells w)
    (i : ℕ) (hi : i < w.dates.length) (j : ℕ) (hj : j < w.cols.length) :
    valueAtDate (daily_returns w) ((w.cols.get ⟨j, hj⟩).1)
        (w.dates.get ⟨i, hi⟩) = rawRet w i j := by
  have hne : w.isEmpty = false := by
    have h1 : w.dates ≠ [] := List.ne_nil_of_length_pos (by omega)
    have h2 : w.cols ≠ [] := List.ne_nil_of_length_pos (by omega)
    simp [Wide.isEmpty, h1, h2]
  have hD := daily_returns_eq w hne
  have hlen : (w.cols.get ⟨j, hj⟩).2.length = w.dates.length :=
    hwf.2.2 _ (List.get_mem _ _ _)
  have hjD : j < (daily_returns w).cols.length := by rw [hD]; simpa using hj
  have hDget : (daily_returns w).cols.get ⟨j, hjD⟩ =
      ((w.cols.get ⟨j, hj⟩).1,
        filterByMask (dailyKeep w) (pctCol (w.cols.get ⟨j, hj⟩).2)) := by
    have : (daily_returns w).cols.get? j = some ((w.cols.get ⟨j, hj⟩).1,
        filterByMask (dailyKeep w) (pctCol (w.cols.get ⟨j, hj⟩).2)) := by
      rw [hD]
      rw [List.get?_map, List.get?_eq_get hj]
      rfl
    rw [List.get?_eq_get hjD] at this
    injection this
  have hDnames : ((daily_returns w).cols.map Prod.fst).Nodup := by
    have : (daily_returns w).cols.map Prod.fst = w.cols.map Prod.fst := by
      rw [hD]
      simp [List.map_map]
    rw [this]
    exact hwf.2.1
  have hcbn := colByName_of_nodup (daily_returns w) hDnames j hjD
  rw [hDget] at hcbn
  dsimp only at hcbn
  have hxex : ∃ x, (pctCol (w.cols.get ⟨j, hj⟩).2).get? i = some x := by
    refine ⟨_, List.get?_eq_get ?_⟩
    rw [length_pctCol, hlen]
    exact hi
  obtain ⟨x, hx⟩ := hxex
  have hxraw := rawRet_eq_pct w hpos j hj hlen i hi x hx
  have hm : (dailyKeep w).get? i =
      some ((w.cols.map (fun c => (c.1, pctCol c.2))).any
        (fun c => ((c.2.get? i).getD none).isSome)) := by
    rw [dailyKeep, List.get?_map, List.get?_range hi]
    rfl
  have hd : w.dates.get? i = some (w.dates.get ⟨i, hi⟩) := List.get?_eq_get hi
  have hlk := dateLookup_fbm (dailyKeep w) w.dates
    (pctCol (w.cols.get ⟨j, hj⟩).2) i (w.dates.get ⟨i, hi⟩) _ x hwf.1 hd hm hx
  have hdates : (daily_returns w).dates = filterByMask (dailyKeep w) w.dates := by
    rw [hD]
  simp only [valueAtDate, hcbn, hdates]
  rw [hlk]
  by_cases hb : (w.cols.map (fun c => (c.1, pctCol c.2))).any
      (fun c => ((c.2.get? i).getD none).isSome) = true
  · rw [if_pos hb]
    exact hxraw
  · rw [if_neg hb]
    simp only [Bool.not_eq_true] at hb
    have hmem : ((w.cols.get ⟨j, hj⟩).1, pctCol (w.cols.get ⟨j, hj⟩).2) ∈
        w.cols.map (fun c => (c.1, pctCol c.2)) :=
      List.mem_map.mpr ⟨w.cols.get ⟨j, hj⟩, List.get_mem _ _ _, rfl⟩
    have hfalse := (List.any_eq_false.mp hb) _ hmem
    rw [hx] at hfalse
    cases x with
    | none => rw [← hxraw]
    | some v => simp at hfalse

/-- Witness for `daily_returns_raw` on a concrete table: ticker "A" has a
missing middle price (so its return on that date is missing), ticker "B" is
complete (so its last return is `4/2 - 1 = 1`). -/
theorem daily_returns_raw_check :
    WF w1 ∧ PosCells w1 ∧
      valueAtDate (daily_returns w1) ((w1.cols.get ⟨0, by decide⟩).1)
        (w1.dates.get ⟨1, by decide⟩) = rawRet w1 1 0 ∧
      rawRet w1 1 0 = none ∧
      valueAtDate (daily_returns w1) ((w1.cols.get ⟨1, by decide⟩).1)
        (w1.dates.get ⟨2, by decide⟩) = rawRet w1 2 1 ∧
      rawRet w1 2 1 = some 1 :=
  ⟨by decide, by decide,
    daily_returns_raw w1 (by decide) (by decide) 1 (by decide) 0 (by decide),
    by decide,
    daily_returns_raw w1 (by decide) (by decide) 2 (by decide) 1 (by decide),
    by norm_num [rawRet, cellAt, w1]⟩

/-- C4 (amended): the benchmark block's normalization of the joined table
(`merged / merged.iloc[0] - 1`, with no fill step) coincides with
`normalized_returns` (which forward- then backward-fills first) exactly on
non-empty joined tables with no missing cells; `bench_norm_ne_normalized`
shows they differ once the joined table has a gap. -/
theorem bench_norm_eq_normalized_of_allSome (w : Wide)
    (hne : w.isEmpty = false) (hall : AllSome w) :
    benchNorm w = normalized_returns w := by
  rw [normalized_returns, if_neg (by simp [hne]), benchNorm]
  congr 1
  apply List.map_congr_left
  intro c hc
  have h1 : ffillList c.2 = c.2 :=
    ffillAux_of_forall_isSome none c.2 (fun x hx => hall c hc x hx)
  have h2 : bfillList c.2 = c.2 :=
    bfillList_of_forall_isSome c.2 (fun x hx => hall c hc x hx)
  rw [h1, h2]

/-- Witness for `bench_norm_eq_normalized_of_allSome` on a concrete
all-present joined table. -/
theorem bench_norm_eq_normalized_check :
    wJoin4w.isEmpty = false ∧ AllSome wJoin4w ∧
      benchNorm wJoin4w = normalized_returns wJoin4w :=
  ⟨rfl, by decide, bench_norm_eq_normalized_of_allSome wJoin4w rfl (by decide)⟩

/-- C6 (amended): `ytd` keeps one entry per ticker column; if no row of
the table falls on or after January 1 of the as-of year, every ticker's
value is missing (an all-missing series, not an error and not zero);
otherwise each ticker's value is `last / first - 1` of the *forward-only*
filled restricted window — in particular (last conjunct), unlike the
cumulative-return fill policy, a ticker whose first in-window cell is
missing gets a missing YTD value. -/
theorem ytd_spec_amended (w : Wide) (y : Int) :
    ((ytd w y).map Prod.fst = w.cols.map Prod.fst) ∧
      ((w.dates.map (fun d => dateLe (janFirst y) d)).any id = false →
        ∀ p ∈ ytd w y, p.2 = none) ∧
      (∀ j, ∀ hj : j < w.cols.length,
        (w.dates.map (fun d => dateLe (janFirst y) d)).any id = true →
        (ytd w y).get? j = some ((w.cols.get ⟨j, hj⟩).1,
          ytdCell
            (((ffillList (filterByMask
                (w.dates.map (fun d => dateLe (janFirst y) d))
                (w.cols.get ⟨j, hj⟩).2)).getLast?).getD none)
            (((ffillList (filterByMask
                (w.dates.map (fun d => dateLe (janFirst y) d))
                (w.cols.get ⟨j, hj⟩).2)).head?).getD none))) ∧
      (∀ j, ∀ hj : j < w.cols.length,
        (filterByMask (w.dates.map (fun d => dateLe (janFirst y) d))
          (w.cols.get ⟨j, hj⟩).2).head? = some none →
        (ytd w y).get? j = some ((w.cols.get ⟨j, hj⟩).1, none)) := by
  refine ⟨?_, ?_, ?_, ?_⟩
  · simp only [ytd]
    split <;> simp [List.map_map]
  · intro h p hp
    simp only [ytd, h, Bool.false_eq_true, if_false] at hp
    obtain ⟨c, _, hc⟩ := List.mem_map.mp hp
    rw [← hc]
  · intro j hj h
    simp only [ytd, h, if_true]
    rw [List.get?_map, List.get?_eq_get hj]
    rfl
  · intro j hj hhead
    by_cases h : (w.dates.map (fun d => dateLe (janFirst y) d)).any id = true
    · simp only [ytd, h, if_true]
      rw [List.get?_map, List.get?_eq_get hj]
      have hH : (ffillList (filterByMask
          (w.dates.map (fun d => dateLe (janFirst y) d))
          (w.cols.get ⟨j, hj⟩).2)).head? = some none := by
        rw [ffillList_head?]; exact hhead
      simp only [Option.map_some']
      rw [hH]
      cases hL : ((ffillList (filterByMask
          (w.dates.map (fun d => dateLe (janFirst y) d))
          (w.cols.get ⟨j, hj⟩).2)).getLast?).getD none <;>
        simp [ytdCell]
    · simp only [Bool.not_eq_true] at h
      simp only [ytd, h, Bool.false_eq_true, if_false]
      rw [List.get?_map, List.get?_eq_get hj]
      rfl

/-- Witness for `ytd_spec_amended`: on `w6`, the year 2026 has no rows in
range (all values missing), and for 2025 the first in-window cell of "A"
is missing, so its YTD value is missing. -/
theorem ytd_spec_amended_check :
    (w6.dates.map (fun d => dateLe (janFirst 2026) d)).any id = false ∧
      (∀ p ∈ ytd w6 2026, p.2 = none) ∧
      (filterByMask (w6.dates.map (fun d => dateLe (janFirst 2025) d))
        (w6.cols.get ⟨0, by decide⟩).2).head? = some none ∧
      (ytd w6 2025).get? 0 = some ((w6.cols.get ⟨0, by decide⟩).1, none) :=
  ⟨by decide, (ytd_spec_amended w6 2026).2.1 (by decide), by decide,
    (ytd_spec_amended w6 2025).2.2.2 0 (by decide) (by decide)⟩

/-- A trailing window never holds more than `window` positions, so never
more than `window` valid values. -/
theorem winVals_length_le (window : ℕ) (c : List (Option ℚ)) (i : ℕ) :
    (winVals window c i).length ≤ window := by
  have h1 := List.length_filterMap_le (id : Option ℚ → Option ℚ)
    (trailingWin window c i)
  have h2 : (trailingWin window c i).length ≤ window := by
    simp only [trailingWin, List.length_drop, List.length_take]
    omega
  unfold winVals
  omega

/-- Positional value of the rolling variance. -/
theorem rollingVarList_get? (window : ℕ) (c : List (Option ℚ)) (i : ℕ)
    (hi : i < c.length) :
    (rollingVarList window c).get? i =
      some (if (winVals window c i).length < window ∨ window < 2 then none
        else some (sampleVarQ (winVals window c i))) := by
  rw [rollingVarList, List.get?_map, List.get?_range hi]
  rfl

/-- C5 (amended): the rolling annualized volatility of a return column of
`daily_returns` is defined at a point exactly when the window size is at
least 2 *and the trailing window holds `window` valid return values* (the
pandas default `min_periods` equals the window, so any missing entry
inside a full window, or insufficient history, makes the point undefined —
not the claimed "fewer than 2 valid values"); wherever defined it equals
the sample standard deviation of the window's values times the
annualization factor times 100. -/
theorem rolling_vol_defined_iff (w : Wide) (window : ℕ) (f : ℝ) (n : String)
    (c : List (Option ℚ)) (hc : (n, c) ∈ (daily_returns w).cols) (i : ℕ)
    (hi : i < c.length) :
    (rollingVolList window f c).get? i =
      some (if 2 ≤ window ∧ (winVals window c i).length = window
        then some (Real.sqrt ((sampleVarQ (winVals window c i) : ℚ) : ℝ) * f * 100)
        else none) := by
  rw [rollingVolList, List.get?_map, rollingVarList_get? window c i hi]
  have hle := winVals_length_le window c i
  by_cases h : 2 ≤ window ∧ (winVals window c i).length = window
  · rw [if_pos h, if_neg (by omega)]
    rfl
  · rw [if_neg h, if_pos (by omega)]
    rfl

/-- C5 (counterexample): on `w5cex`, ticker "A"'s return column is
`[1, 1, missing]`; at its last point the trailing window of size 3 holds
2 valid values — at least the 2 the claim requires for a defined result —
yet the rolling volatility there is undefined (pandas' `min_periods`
defaults to the window size, 3, not 2). -/
theorem rolling_vol_two_valid_undefined :
    ("A", [some (1 : ℚ), some 1, none]) ∈ (daily_returns w5cex).cols ∧
      (winVals 3 [some (1 : ℚ), some 1, none] 2).length = 2 ∧
      (rollingVolList 3 (Real.sqrt 252) [some (1 : ℚ), some 1, none]).get? 2 =
        some none := by
  refine ⟨?_, by decide, ?_⟩
  · have hcols : (daily_returns w5cex).cols =
        [("A", [some 1, some 1, none]), ("B", [some 1, some 1, some 1])] := by
      norm_num [daily_returns, w5cex, Wide.isEmpty, pctCol, shift1, divSub1,
        filterByMask]
    rw [hcols]
    simp
  · have h : (rollingVarList 3 [some (1 : ℚ), some 1, none]).get? 2 =
        some none := by decide
    rw [rollingVolList, List.get?_map, h]
    rfl

/-- Witness for `rolling_vol_defined_iff` on a concrete table whose single
return column is `[1, 3]`, with a full valid window of size 2. -/
theorem rolling_vol_defined_iff_check :
    ("A", [some (1 : ℚ), some 3]) ∈ (daily_returns w5wit).cols ∧
      (rollingVolList 2 (Real.sqrt 252) [some (1 : ℚ), some 3]).get? 1 =
        some (if 2 ≤ 2 ∧ (winVals 2 [some (1 : ℚ), some 3] 1).length = 2
          then some (Real.sqrt
              ((sampleVarQ (winVals 2 [some (1 : ℚ), some 3] 1) : ℚ) : ℝ) *
            Real.sqrt 252 * 100)
          else none) := by
  have hm : ("A", [some (1 : ℚ), some 3]) ∈ (daily_returns w5wit).cols := by
    have hcols : (daily_returns w5wit).cols = [("A", [some 1, some 3])] := by
      norm_num [daily_returns, w5wit, Wide.isEmpty, pctCol, shift1, divSub1,
        filterByMask]
    rw [hcols]
    simp
  exact ⟨hm, rolling_vol_defined_iff w5wit 2 (Real.sqrt 252) "A"
    [some (1 : ℚ), some 3] hm 1 (by decide)⟩

/-- The pairwise-complete observations of a column with itself are its
valid values, duplicated. -/
theorem pairObs_self (c : List (Option ℚ)) :
    pairObs c c = (c.filterMap id).map (fun v => (v, v)) := by
  induction c with
  | nil => rfl
  | cons x xs ih =>
    cases x <;> simp [pairObs, List.zip_cons_cons, List.filterMap_cons] <;>
      simpa [pairObs] using ih

/-- Swapping the two columns swaps every observation pair. -/
theorem pairObs_swap (c d : List (Option ℚ)) :
    pairObs d c = (pairObs c d).map (fun p => (p.2, p.1)) := by
  induction c generalizing d with
  | nil => cases d <;> rfl
  | cons x xs ih =>
    cases d with
    | nil => rfl
    | cons y ys =>
      cases x <;> cases y <;>
        simp [pairObs, List.zip_cons_cons, List.filterMap_cons] <;>
          simpa [pairObs] using ih ys

/-- The mean of the first components after a swap is the mean of the
second components. -/
theorem corrMeanFst_swap (ps : List (ℚ × ℚ)) :
    corrMeanFst (ps.map (fun p => (p.2, p.1))) = corrMeanSnd ps := by
  rw [corrMeanFst, corrMeanSnd, List.map_map, List.length_map]
  rfl

/-- The mean of the second components after a swap is the mean of the
first components. -/
theorem corrMeanSnd_swap (ps : List (ℚ × ℚ)) :
    corrMeanSnd (ps.map (fun p => (p.2, p.1))) = corrMeanFst ps := by
  rw [corrMeanSnd, corrMeanFst, List.map_map, List.length_map]
  rfl

/-- The first-component variance after a swap is the second-component
variance. -/
theorem corrVarFst_swap (ps : List (ℚ × ℚ)) :
    corrVarFst (ps.map (fun p => (p.2, p.1))) = corrVarSnd ps := by
  rw [corrVarFst, corrVarSnd, corrMeanFst_swap, List.map_map]
  rfl

/-- The second-component variance after a swap is the first-component
variance. -/
theorem corrVarSnd_swap (ps : List (ℚ × ℚ)) :
    corrVarSnd (ps.map (fun p => (p.2, p.1))) = corrVarFst ps := by
  rw [corrVarSnd, corrVarFst, corrMeanSnd_swap, List.map_map]
  rfl

/-- The covariance is invariant under swapping the components. -/
theorem corrCov_swap (ps : List (ℚ × ℚ)) :
    corrCov (ps.map (fun p => (p.2, p.1))) = corrCov ps := by
  rw [corrCov, corrCov, corrMeanFst_swap, corrMeanSnd_swap, List.map_map]
  congr 1
  apply List.map_congr_left
  intro p _
  dsimp
  ring

/-- The Pearson correlation is invariant under swapping the components. -/
theorem corrOf_swap (ps : List (ℚ × ℚ)) :
    corrOf (ps.map (fun p => (p.2, p.1))) = corrOf ps := by
  rw [corrOf, corrOf, corrVarFst_swap, corrVarSnd_swap, corrCov_swap]
  by_cases h1 : ps = []
  · simp [h1]
  · rw [if_neg (by simpa using h1), if_neg h1]
    by_cases h2 : corrVarFst ps = 0 ∨ corrVarSnd ps = 0
    · rw [if_pos h2.symm, if_pos h2]
    · rw [if_neg (fun h => h2 h.symm), if_neg h2, mul_comm]

/-- A correlation entry is symmetric in its two columns. -/
theorem corrEntry_symm (c d : List (Option ℚ)) :
    corrEntry c d = corrEntry d c := by
  rw [corrEntry, corrEntry, pairObs_swap c d, corrOf_swap]

/-- The diagonal correlation entry of a column with at least one valid
observation and nonzero variance is exactly `1`. -/
theorem corrEntry_diag (c : List (Option ℚ)) (hn : 1 ≤ obsCount c)
    (hv : colVarQ c ≠ 0) : corrEntry c c = some 1 := by
  rw [corrEntry, pairObs_self]
  have hmean : corrMeanFst ((c.filterMap id).map (fun v => (v, v))) =
      (c.filterMap id).sum / ((c.filterMap id).length : ℚ) := by
    rw [corrMeanFst, List.map_map, List.length_map,
      show Prod.fst ∘ (fun v : ℚ => (v, v)) = id from rfl, List.map_id]
  have hmean2 : corrMeanSnd ((c.filterMap id).map (fun v => (v, v))) =
      (c.filterMap id).sum / ((c.filterMap id).length : ℚ) := by
    rw [corrMeanSnd, List.map_map, List.length_map,
      show Prod.snd ∘ (fun v : ℚ => (v, v)) = id from rfl, List.map_id]
  have hvf : corrVarFst ((c.filterMap id).map (fun v => (v, v))) = colVarQ c := by
    rw [corrVarFst, hmean, List.map_map, colVarQ]
    rfl
  have hvs : corrVarSnd ((c.filterMap id).map (fun v => (v, v))) = colVarQ c := by
    rw [corrVarSnd, hmean2, List.map_map, colVarQ]
    rfl
  have hcov : corrCov ((c.filterMap id).map (fun v => (v, v))) = colVarQ c := by
    rw [corrCov, hmean, hmean2, List.map_map, colVarQ]
    congr 1
    apply List.map_congr_left
    intro v _
    dsimp
    ring
  have hnnil : (c.filterMap id).map (fun v => (v, v)) ≠ [] := by
    intro hcon
    have hvs : c.filterMap id = [] := by simpa using hcon
    have hobs : obsCount c = 0 := by rw [obsCount, hvs]; rfl
    omega
  have hVnonneg : (0 : ℚ) ≤ colVarQ c := by
    apply List.sum_nonneg
    intro x hx
    obtain ⟨a, _, ha⟩ := List.mem_map.mp hx
    rw [← ha]
    exact sq_nonneg _
  rw [corrOf, if_neg hnnil, hvf, hvs, hcov, if_neg (by simp [hv])]
  have hVR : (0 : ℝ) < (colVarQ c : ℝ) := by
    have : (0 : ℚ) < colVarQ c := lt_of_le_of_ne hVnonneg (Ne.symm hv)
    exact_mod_cast this
  rw [Real.mul_self_sqrt (le_of_lt hVR)]
  rw [div_self (ne_of_gt hVR)]

/-- Two columns presenting no common position with both values present
have no pairwise-complete observation. -/
theorem pairObs_eq_nil_of_disjoint (c d : List (Option ℚ))
    (h : ∀ k, k < c.length → (((c.get? k).getD none).isSome = true →
      (d.get? k).getD none = none)) : pairObs c d = [] := by
  rw [pairObs, List.filterMap_eq_nil_iff]
  intro p hp
  obtain ⟨k, h1, h2⟩ := mem_zip_pos c d p hp
  cases hp1 : p.1 with
  | none => simp [hp1]
  | some a =>
    cases hp2 : p.2 with
    | none => simp [hp1, hp2]
    | some b =>
      exfalso
      have hk : k < c.length := (List.get?_eq_some.mp h1).1
      have hd := h k hk (by rw [h1, hp1]; rfl)
      rw [h2, hp2] at hd
      exact Option.noConfusion hd

/-- C7 (counterexample): ticker "A" of `w7` has a constant price, so its
daily-return column is `[0, 0]` — 2 valid observations — yet the diagonal
correlation entry is missing (`NaN` from the zero-variance `0/0`), not
`1.0` as the claim states for every ticker with at least 2 valid return
observations. -/
theorem corr_diag_constant_none :
    obsCount (retColAt w7 0) = 2 ∧ corrMatrix w7 0 0 = none := by
  have hret : retColAt w7 0 = [some 0, some 0] := by
    norm_num [retColAt, daily_returns, w7, Wide.isEmpty, pctCol, shift1,
      divSub1, filterByMask]
  constructor
  · rw [hret]
    decide
  · rw [corrMatrix, hret, corrEntry]
    have hps : pairObs [some (0 : ℚ), some 0] [some (0 : ℚ), some 0] =
        [(0, 0), (0, 0)] := by decide
    rw [hps, corrOf, if_neg (by simp),
      if_pos (Or.inl (by norm_num [corrVarFst, corrMeanFst]))]

/-- C7 (amended): the correlation matrix of the daily returns is
symmetric; its diagonal entry is exactly `1.0` for a ticker with at least
2 valid return observations *and nonzero return variance* (a constant
return column yields a missing entry instead, see
`corr_diag_constant_none`); and a pair of tickers whose return columns
share no position where both are present has a missing entry, not `0`. -/
theorem corr_matrix_props (w : Wide) (i j : ℕ) :
    corrMatrix w i j = corrMatrix w j i ∧
      (2 ≤ obsCount (retColAt w i) → colVarQ (retColAt w i) ≠ 0 →
        corrMatrix w i i = some 1) ∧
      ((∀ k, k < (retColAt w i).length →
          (((retColAt w i).get? k).getD none).isSome = true →
          ((retColAt w j).get? k).getD none = none) →
        corrMatrix w i j = none) := by
  refine ⟨?_, ?_, ?_⟩
  · rw [corrMatrix, corrMatrix, corrEntry_symm]
  · intro h2 hv
    rw [corrMatrix]
    exact corrEntry_diag _ (by omega) hv
  · intro hdisj
    rw [corrMatrix, corrEntry, pairObs_eq_nil_of_disjoint _ _ hdisj, corrOf]
    simp

/-- Witness for `corr_matrix_props`: symmetry and the missing disjoint
entry on `w7b` (fully disjoint trading days), the exact `1.0` diagonal on
`w7a` (returns `[1, 3]`, nonzero variance). -/
theorem corr_matrix_props_check :
    corrMatrix w7b 0 1 = corrMatrix w7b 1 0 ∧
      2 ≤ obsCount (retColAt w7a 0) ∧ colVarQ (retColAt w7a 0) ≠ 0 ∧
      corrMatrix w7a 0 0 = some 1 ∧ corrMatrix w7b 0 1 = none := by
  have hAret : retColAt w7a 0 = [some 1, some 3] := by
    norm_num [retColAt, daily_returns, w7a, Wide.isEmpty, pctCol, shift1,
      divSub1, filterByMask]
  have hBret0 : retColAt w7b 0 = [some 1, none, none] := by
    norm_num [retColAt, daily_returns, w7b, Wide.isEmpty, pctCol, shift1,
      divSub1, filterByMask]
  have hBret1 : retColAt w7b 1 = [none, some 0, some 1] := by
    norm_num [retColAt, daily_returns, w7b, Wide.isEmpty, pctCol, shift1,
      divSub1, filterByMask]
  have h2 : 2 ≤ obsCount (retColAt w7a 0) := by rw [hAret]; decide
  have h3 : colVarQ (retColAt w7a 0) ≠ 0 := by
    rw [hAret]
    norm_num [colVarQ, List.filterMap_cons]
  have hdisj : ∀ k, k < (retColAt w7b 0).length →
      (((retColAt w7b 0).get? k).getD none).isSome = true →
      ((retColAt w7b 1).get? k).getD none = none := by
    rw [hBret0, hBret1]
    decide
  exact ⟨(corr_matrix_props w7b 0 1).1, h2, h3,
    (corr_matrix_props w7a 0 0).2.1 h2 h3,
    (corr_matrix_props w7b 0 1).2.2 hdisj⟩

/-- The raw cell in terms of a looked-up column. -/
theorem cellAt_eq (w : Wide) (i j : ℕ) (cj : String × List (Option ℚ))
    (hcj : w.cols.get? j = some cj) : cellAt w i j = (cj.2.get? i).getD none := by
  simp only [cellAt]
  rw [hcj]

/-- Membership characterization of the long table: a (date, ticker, close)
row appears exactly when some date position and some column carry that
ticker name and that present close value. -/
theorem mem_to_long (w : Wide) (hne : w.isEmpty = false) (r : LongRow) :
    r ∈ to_long_close w ↔
      ∃ i' j' cj, w.dates.get? i' = some r.1 ∧ w.cols.get? j' = some cj ∧
        cj.1 = r.2.1 ∧ cj.2.get? i' = some (some r.2.2) := by
  rw [to_long_close, if_neg (by simp [hne])]
  constructor
  · intro hr
    obtain ⟨c, hc, hrc⟩ := List.mem_flatMap.mp hr
    obtain ⟨p, hp, hpr⟩ := List.mem_filterMap.mp hrc
    obtain ⟨k, h1, h2⟩ := mem_zip_pos _ _ p hp
    cases hp2 : p.2 with
    | none => rw [hp2] at hpr; simp at hpr
    | some v =>
      rw [hp2] at hpr
      simp only [Option.map_some', Option.some.injEq] at hpr
      obtain ⟨j', hj'⟩ := List.mem_iff_get?.mp hc
      refine ⟨k, j', c, ?_, hj', ?_, ?_⟩
      · rw [h1, ← hpr]
      · rw [← hpr]
      · rw [h2, hp2, ← hpr]
  · rintro ⟨i', j', cj, hd, hcj, hname, hcell⟩
    apply List.mem_flatMap.mpr
    refine ⟨cj, List.get?_mem hcj, ?_⟩
    apply List.mem_filterMap.mpr
    refine ⟨(r.1, some r.2.2),
      List.get?_mem (zip_get?_some _ _ i' _ _ hd hcell), ?_⟩
    simp [hname]

/-- C8 (confirmed): for a well-formed wide table, melting with
`to_long_close` and re-pivoting the long rows back to wide form —
re-inserting missing cells as absent — reproduces every cell of the
original table exactly: present cells come back with their value, missing
cells come back missing. -/
theorem to_long_roundtrip (w : Wide) (hwf : WF w) (i : ℕ)
    (hi : i < w.dates.length) (j : ℕ) (hj : j < w.cols.length) :
    rePivot (to_long_close w) (w.dates.get ⟨i, hi⟩) ((w.cols.get ⟨j, hj⟩).1) =
      cellAt w i j := by
  have hne : w.isEmpty = false := by
    have h1 : w.dates ≠ [] := List.ne_nil_of_length_pos (by omega)
    have h2 : w.cols ≠ [] := List.ne_nil_of_length_pos (by omega)
    simp [Wide.isEmpty, h1, h2]
  have hcol : w.cols.get? j = some (w.cols.get ⟨j, hj⟩) := List.get?_eq_get hj
  have huniq : ∀ r ∈ to_long_close w,
      r.1 = w.dates.get ⟨i, hi⟩ → r.2.1 = (w.cols.get ⟨j, hj⟩).1 →
      cellAt w i j = some r.2.2 := by
    intro r hr hr1 hr2
    obtain ⟨i', j', cj, hd', hcj, hname, hcell⟩ := (mem_to_long w hne r).mp hr
    have hii : i' = i := by
      apply List.get?_inj (List.get?_eq_some.mp hd').1 hwf.1
      rw [hd', hr1, List.get?_eq_get hi]
    have hjj : j' = j := by
      apply List.get?_inj
        (by
          rw [List.length_map]
          exact (List.get?_eq_some.mp hcj).1)
        hwf.2.1
      rw [List.get?_map, List.get?_map, hcj, hcol]
      simp only [Option.map_some', Option.some.injEq]
      rw [hname, hr2]
    rw [hjj] at hcj
    rw [hcol] at hcj
    injection hcj with hcj
    rw [cellAt_eq w i j _ hcol, hcj, ← hii, hcell]
    rfl
  cases hcell : cellAt w i j with
  | some v =>
    have hcell' : (w.cols.get ⟨j, hj⟩).2.get? i = some (some v) := by
      rw [cellAt_eq w i j _ hcol] at hcell
      cases hx : (w.cols.get ⟨j, hj⟩).2.get? i with
      | none => rw [hx] at hcell; simp at hcell
      | some o => rw [hx] at hcell; simp at hcell; rw [hcell]
    have hr0 : ((w.dates.get ⟨i, hi⟩ : Date), ((w.cols.get ⟨j, hj⟩).1, v)) ∈
        to_long_close w := by
      apply (mem_to_long w hne _).mpr
      exact ⟨i, j, w.cols.get ⟨j, hj⟩, List.get?_eq_get hi, hcol, rfl, hcell'⟩
    have hfind : ((to_long_close w).find? (fun r =>
        r.1 = w.dates.get ⟨i, hi⟩ ∧ r.2.1 = (w.cols.get ⟨j, hj⟩).1)).isSome :=
      List.find?_isSome.mpr ⟨_, hr0, by simp⟩
    obtain ⟨r1, hr1⟩ := Option.isSome_iff_exists.mp hfind
    have hpred : r1.1 = w.dates.get ⟨i, hi⟩ ∧
        r1.2.1 = (w.cols.get ⟨j, hj⟩).1 := by
      simpa using List.find?_some hr1
    have hmem1 := List.mem_of_find?_eq_some hr1
    have hcv := huniq r1 hmem1 hpred.1 hpred.2
    rw [rePivot, hr1]
    simp only [Option.map_some']
    rw [hcell] at hcv
    injection hcv with hcv
    rw [← hcv]
  | none =>
    have hfind : (to_long_close w).find? (fun r =>
        r.1 = w.dates.get ⟨i, hi⟩ ∧ r.2.1 = (w.cols.get ⟨j, hj⟩).1) = none := by
      rw [List.find?_eq_none]
      intro r hr hpred
      simp only [decide_eq_true_eq] at hpred
      have hcv := huniq r hr hpred.1 hpred.2
      rw [hcell] at hcv
      exact Option.noConfusion hcv
    rw [rePivot, hfind]
    rfl

/-- Witness for `to_long_roundtrip`: on `w8`, the present cell
`("A", date 1)` pivots back to its value and the absent cell
`("A", date 2)` pivots back to absent. -/
theorem to_long_roundtrip_check :
    WF w8 ∧
      rePivot (to_long_close w8) (w8.dates.get ⟨0, by decide⟩)
        ((w8.cols.get ⟨0, by decide⟩).1) = cellAt w8 0 0 ∧
      cellAt w8 0 0 = some 1 ∧
      rePivot (to_long_close w8) (w8.dates.get ⟨1, by decide⟩)
        ((w8.cols.get ⟨0, by decide⟩).1) = cellAt w8 1 0 ∧
      cellAt w8 1 0 = none :=
  ⟨by decide,
    to_long_roundtrip w8 (by decide) 0 (by decide) 0 (by decide), by decide,
    to_long_roundtrip w8 (by decide) 1 (by decide) 0 (by decide), by decide⟩
